import Mathlib

/-
Verification of the local-pr-reviewer diff viewer and repository scanner.
Shallow embedding of:
  - src/app/components/diff-viewer.tsx (view-state reducer, comment index,
    auto-collapse policy, hunk line-range derivation, indicator suppression)
  - src/unnamed/part_003 (multi-root streaming repository scanner and its
    NDJSON loader with scan-scoped deduplication)
JS Maps and Sets are embedded as insertion-ordered association lists /
lists without duplicates, which matches JS iteration order semantics.
-/

namespace LocalPRReviewer

/-! Association-list helpers: the embedding of the JS `Map` operations used
by the source (`get`, `set` on a fresh key appends; mutating an existing
value keeps its position, matching JS Map insertion-order iteration). -/

/-- Lookup in an insertion-ordered association list (JS `Map.get`). -/
def alookup {α β : Type} [DecidableEq α] (k : α) : List (α × β) → Option β
  | [] => none
  | e :: rest => if e.1 = k then some e.2 else alookup k rest

/-- Update the value stored at key `k` in place (JS mutation of the value
retrieved by `Map.get`, which keeps the key position). -/
def aupdate {α β : Type} [DecidableEq α] (k : α) (f : β → β) : List (α × β) → List (α × β)
  | [] => []
  | e :: rest => if e.1 = k then (e.1, f e.2) :: rest else e :: aupdate k f rest

/-- Insert a default value for `k` when absent (the JS
`if (!map.has(k)) map.set(k, v)` idiom; a fresh key is appended). -/
def aensure {α β : Type} [DecidableEq α] (k : α) (v : β) (m : List (α × β)) : List (α × β) :=
  if (alookup k m).isSome then m else m ++ [(k, v)]

/-- Set a key to a value, overwriting when present, appending when absent
(JS `Map.set`). -/
def aset {α β : Type} [DecidableEq α] (k : α) (v : β) (m : List (α × β)) : List (α × β) :=
  if (alookup k m).isSome then aupdate k (fun _ => v) m else m ++ [(k, v)]

theorem alookup_append {α β : Type} [DecidableEq α] (k : α) (m₁ m₂ : List (α × β)) :
    alookup k (m₁ ++ m₂) =
      match alookup k m₁ with
      | some v => some v
      | none => alookup k m₂ := by
  induction m₁ with
  | nil => simp [alookup]
  | cons e rest ih =>
    by_cases h : e.1 = k <;> simp [alookup, h, ih]

theorem alookup_aupdate {α β : Type} [DecidableEq α] (k k' : α) (f : β → β)
    (m : List (α × β)) :
    alookup k (aupdate k' f m) =
      if k' = k then (alookup k m).map f else alookup k m := by
  induction m with
  | nil => by_cases h : k' = k <;> simp [alookup, aupdate, h]
  | cons e rest ih =>
    simp only [aupdate]
    by_cases h : e.1 = k'
    · subst h
      by_cases h2 : e.1 = k <;> simp [alookup, h2]
    · simp only [if_neg h, alookup]
      by_cases h2 : e.1 = k
      · have hne : k' ≠ k := by intro hh; subst hh; exact h h2
        simp [h2, hne]
      · simp [h2, ih]

theorem alookup_aensure {α β : Type} [DecidableEq α] (k k' : α) (v : β)
    (m : List (α × β)) :
    alookup k (aensure k' v m) =
      if k' = k then some ((alookup k m).getD v) else alookup k m := by
  unfold aensure
  by_cases hs : (alookup k' m).isSome
  · rw [if_pos hs]
    by_cases hk : k' = k
    · subst hk
      rcases Option.isSome_iff_exists.mp hs with ⟨v', hv'⟩
      simp [hv']
    · simp [hk]
  · rw [if_neg hs]
    rw [alookup_append]
    have hn : alookup k' m = none := Option.not_isSome_iff_eq_none.mp hs
    by_cases hk : k' = k
    · subst hk
      simp [hn, alookup]
    · by_cases hm : alookup k m = none
      · simp [hm, alookup, hk]
      · rcases Option.ne_none_iff_exists'.mp hm with ⟨v', hv'⟩
        simp [hv', hk]

/-! Data model. `Comment` is owned by the external Comment Store
(`src/app/services/comment.service`, not part of the sources); its record
shape is modelled from the spec: id, file path, optional inclusive
line_start/line_end (null meaning file-level), side in old/new, content,
status in queued/staged/sent/resolved, optional sent_at. -/

inductive CommentSide where
  | old
  | new
deriving DecidableEq, Repr

inductive CommentStatus where
  | queued
  | staged
  | sent
  | resolved
deriving DecidableEq, Repr

/-- Modelled from the spec: the Comment record owned by the external
Comment Store (spec section 3); the fields are the ones the diff viewer
reads (`file_path`, nullable `line_start` / `line_end`, `content`,
`status`, `id`). -/
structure Comment where
  id : String
  file_path : String
  line_start : Option Nat
  line_end : Option Nat
  side : CommentSide
  content : String
  status : CommentStatus
  sent_at : Option String
deriving DecidableEq, Repr

/-- The `AnnotationSide` type of the external diff engine
(`'additions' | 'deletions'`). -/
inductive AnnotationSide where
  | additions
  | deletions
deriving DecidableEq, Repr

/-- Embeds `SelectedLineRange` from diff-viewer.tsx. -/
structure SelectedLineRange where
  start : Nat
  stop : Nat
  side : Option AnnotationSide
  endSide : Option AnnotationSide
deriving DecidableEq, Repr

/-- Embeds `CommentFormData` from diff-viewer.tsx; optional TS fields
become `Option`, the optional boolean `isFileComment` is `false` when
absent (both `undefined` and `false` are falsy in every use site). -/
structure CommentFormData where
  filePath : String
  lineStart : Option Nat
  lineEnd : Option Nat
  side : AnnotationSide
  isFileComment : Bool
deriving DecidableEq, Repr

/-- Embeds `DiffViewerState` from diff-viewer.tsx. The JS `Set`s are
insertion-ordered lists, the JS `Map` an association list. -/
structure DiffViewerState where
  commentForm : Option CommentFormData
  selectedLines : List (String × Option SelectedLineRange)
  expandedFiles : List String
  isInitialized : Bool
  loadedFiles : List String
deriving DecidableEq, Repr

/-- Embeds `DiffViewerAction` from diff-viewer.tsx. -/
inductive DiffViewerAction where
  | setCommentForm (payload : Option CommentFormData)
  | setSelectedLines (payload : List (String × Option SelectedLineRange))
  | setExpandedFiles (payload : List String)
  | toggleFileExpanded (payload : String)
  | collapseAll
  | setIsInitialized (payload : Bool)
  | setLoadedFiles (payload : List String)
  | markFileLoaded (payload : String)
  | closeComment
  | resetForNewDiff
deriving DecidableEq

/-- Embeds `diffViewerReducer` from diff-viewer.tsx.  `new Set(s)` followed
by `add`/`delete` is embedded as append-if-absent / erase on the list;
`RESET_FOR_NEW_DIFF` spreads the old state and replaces only
`isInitialized`, `expandedFiles` and `loadedFiles`, exactly as the source
does. -/
def diffViewerReducer (state : DiffViewerState) (action : DiffViewerAction) : DiffViewerState :=
  match action with
  | .setCommentForm payload => { state with commentForm := payload }
  | .setSelectedLines payload => { state with selectedLines := payload }
  | .setExpandedFiles payload => { state with expandedFiles := payload }
  | .toggleFileExpanded payload =>
      if payload ∈ state.expandedFiles then
        { state with expandedFiles := state.expandedFiles.erase payload }
      else
        { state with expandedFiles := state.expandedFiles ++ [payload] }
  | .collapseAll => { state with expandedFiles := [] }
  | .setIsInitialized payload => { state with isInitialized := payload }
  | .setLoadedFiles payload => { state with loadedFiles := payload }
  | .markFileLoaded payload =>
      if payload ∈ state.loadedFiles then state
      else { state with loadedFiles := state.loadedFiles ++ [payload] }
  | .closeComment => { state with commentForm := none, selectedLines := [] }
  | .resetForNewDiff =>
      { state with
        isInitialized := false
        expandedFiles := []
        loadedFiles := [] }

/-- A concrete in-progress comment target, used by counterexamples. -/
def cfSample : CommentFormData :=
  { filePath := "src/app.ts", lineStart := some 3, lineEnd := none
    side := .additions, isFileComment := false }

/-- A concrete view state with an active comment target and a selection. -/
def stateSample : DiffViewerState :=
  { commentForm := some cfSample
    selectedLines := [("src/app.ts", some ⟨3, 3, some .additions, none⟩)]
    expandedFiles := ["src/app.ts"]
    isInitialized := true
    loadedFiles := ["src/app.ts"] }

/-- C3 counterexample: dispatching `RESET_FOR_NEW_DIFF` on a state with an
active comment target leaves `commentForm` set — the claim that the reset
produces `commentForm = null` is false on the code (the reducer spreads the
old state and replaces only `isInitialized`, `expandedFiles` and
`loadedFiles`). -/
theorem reset_keeps_commentForm_counterexample :
    (diffViewerReducer stateSample .resetForNewDiff).commentForm = some cfSample ∧
      some cfSample ≠ (none : Option CommentFormData) := by
  constructor
  · rfl
  · intro h; cases h

/-- C3 amended: for every view state, `RESET_FOR_NEW_DIFF` empties the
expanded-file set, empties the loaded-file set and clears the initialized
flag, but leaves the active comment target (and the selected lines)
exactly as they were. -/
theorem reset_for_new_diff_amended (s : DiffViewerState) :
    (diffViewerReducer s .resetForNewDiff).expandedFiles = [] ∧
    (diffViewerReducer s .resetForNewDiff).loadedFiles = [] ∧
    (diffViewerReducer s .resetForNewDiff).isInitialized = false ∧
    (diffViewerReducer s .resetForNewDiff).commentForm = s.commentForm ∧
    (diffViewerReducer s .resetForNewDiff).selectedLines = s.selectedLines := by
  refine ⟨rfl, rfl, rfl, rfl, rfl⟩

/-- C9: for every view state, `CLOSE_COMMENT` clears the active comment
target and replaces the selected-lines map with the empty map, so every
file's selection reads back as absent. -/
theorem close_comment_clears_target_and_selections (s : DiffViewerState) :
    (diffViewerReducer s .closeComment).commentForm = none ∧
    (diffViewerReducer s .closeComment).selectedLines = [] ∧
    ∀ f : String, alookup f (diffViewerReducer s .closeComment).selectedLines = none := by
  refine ⟨rfl, rfl, fun f => rfl⟩

/-- C10: once a file is in the loaded-file set it stays there under every
reducer action except the full reset for a new raw diff and the (never
dispatched) wholesale `SET_LOADED_FILES` replacement: the new loaded set
contains everything the old one did. -/
theorem loadedFiles_monotone (s : DiffViewerState) (a : DiffViewerAction)
    (hset : ∀ l, a ≠ .setLoadedFiles l) (hreset : a ≠ .resetForNewDiff) :
    ∀ x ∈ s.loadedFiles, x ∈ (diffViewerReducer s a).loadedFiles := by
  intro x hx
  cases a with
  | setCommentForm p => exact hx
  | setSelectedLines p => exact hx
  | setExpandedFiles p => exact hx
  | toggleFileExpanded p =>
      simp only [diffViewerReducer]
      split <;> exact hx
  | collapseAll => exact hx
  | setIsInitialized p => exact hx
  | setLoadedFiles p => exact absurd rfl (hset p)
  | markFileLoaded p =>
      simp only [diffViewerReducer]
      split
      · exact hx
      · exact List.mem_append_left _ hx
  | closeComment => exact hx
  | resetForNewDiff => exact absurd rfl hreset

/-- C10 witness: the file loaded in `stateSample` is still loaded after a
collapse-all. -/
theorem loadedFiles_monotone_witness :
    "src/app.ts" ∈ (diffViewerReducer stateSample .collapseAll).loadedFiles :=
  loadedFiles_monotone stateSample .collapseAll
    (fun l h => by cases h) (fun h => by cases h) "src/app.ts" (by decide)

/-! Repository discovery scanner (src/unnamed/part_003).  The filesystem
seen by `readdirSync` is embedded as a tree: a node is either a plain file
or a directory carrying the answer the `git.isGitRepo` service gives for
it, whether `readdirSync` succeeds on it, and its named entries in
directory-listing order.  Paths are lists of path segments (the embedding
of `join(dir, entry.name)` is appending a segment). -/

mutual
inductive Fs where
  | file : Fs
  | dir (isRepo : Bool) (readable : Bool) (entries : EntryList) : Fs
inductive EntryList where
  | nil : EntryList
  | cons (name : String) (child : Fs) (rest : EntryList) : EntryList
end

/-- Whether a node is a directory (`entry.isDirectory()`). -/
def Fs.isDirectory : Fs → Bool
  | .file => false
  | .dir _ _ _ => true

/-- The answer of the `git.isGitRepo` predicate for a directory node. -/
def Fs.isGitRepo : Fs → Bool
  | .file => false
  | .dir r _ _ => r

/-- Embeds the `IGNORED_DIRS` set from src/unnamed/part_003. -/
def IGNORED_DIRS : List String :=
  ["node_modules", ".git", "dist", "build", ".next", ".cache",
   "coverage", "vendor", "__pycache__", ".venv", "venv"]

/-- Embeds the JS `name.startsWith('.')` check: whether the first
character of the string is a dot. -/
def startsWithDot (s : String) : Bool :=
  match s.data with
  | [] => false
  | c :: _ => c = '.'

/-- Embeds the `Stream.filter` predicate of `scanForReposStream`: keep
directory entries that are not in the ignore set and are not
dot-directories (with the `.git` exemption from the dot rule). -/
def keepEntry (name : String) (child : Fs) : Bool :=
  child.isDirectory && !IGNORED_DIRS.contains name &&
    !(startsWithDot name && name ≠ ".git")

/-- Embeds the `GitRepo` record `{path, name}` emitted by the scanner. -/
structure GitRepo where
  path : List String
  name : String
deriving DecidableEq, Repr

mutual
/-- Embeds `scanForReposStream` from src/unnamed/part_003 for one
directory: return empty once `depth > maxDepth`, return empty when
`readdirSync` fails (errors are swallowed), otherwise walk the kept
entries in order, emitting a repo record for each child the git predicate
accepts and recursing (at `depth + 1`) into the others. -/
def scanForRepos (fs : Fs) (dirPath : List String) (maxDepth depth : Nat) : List GitRepo :=
  if depth > maxDepth then []
  else
    match fs with
    | .file => []
    | .dir _ readable entries =>
        if readable then scanEntries entries dirPath maxDepth depth else []

/-- The entry walk of `scanForReposStream`: the `filter` / `mapEffect` /
`flatMap` pipeline over one directory listing. -/
def scanEntries (es : EntryList) (dirPath : List String) (maxDepth depth : Nat) : List GitRepo :=
  match es with
  | .nil => []
  | .cons name child rest =>
      (if keepEntry name child then
        (if child.isGitRepo then [⟨dirPath ++ [name], name⟩]
         else scanForRepos child (dirPath ++ [name]) maxDepth (depth + 1))
       else []) ++ scanEntries rest dirPath maxDepth depth
end

/-- Find a named entry in a directory listing. -/
def findEntry (name : String) : EntryList → Option Fs
  | .nil => none
  | .cons n c rest => if n = name then some c else findEntry name rest

/-- Navigate the filesystem tree to the node a root path denotes. -/
def subtreeAt (fs : Fs) : List String → Option Fs
  | [] => some fs
  | n :: rest =>
      match fs with
      | .file => none
      | .dir _ _ es =>
          match findEntry n es with
          | none => none
          | some c => subtreeAt c rest

/-- One per-root stream of the loader: scan the directory the root path
denotes (a root that cannot be read at all contributes nothing, exactly
as the swallowed `readdirSync` failure does). -/
def scanRoot (fsRoot : Fs) (root : List String) (maxDepth : Nat) : List GitRepo :=
  match subtreeAt fsRoot root with
  | some t => scanForRepos t root maxDepth 0
  | none => []

/-- A small concrete filesystem: the root holds directory `a`, which holds
git repository `b`. -/
def fsSample : Fs :=
  .dir false true (.cons "a" (.dir false true (.cons "b" (.dir true true .nil) .nil)) .nil)

/-! The `loader` of src/unnamed/part_003: the per-root streams are merged
concurrently, the merged stream is folded through a scan-scoped `seenPaths`
set and a name-sorted accumulator, each newly seen repo is enqueued as one
NDJSON `repo` record, and on exhaustion one `done` record (or, when the
effect fails, one `error` record and no `done`) terminates the stream.
The merged stream is embedded as the list of repos the fold consumes;
because `Stream.mergeAll` interleaves the per-root streams, that list is
some permutation of the concatenation of the per-root scans, and an
effect failure is embedded as the fold stopping after a prefix. -/

/-- NDJSON records of the discovery streaming protocol. -/
inductive ScanMsg where
  | repo (data : GitRepo)
  | done (total : Nat)
  | error (message : String)
deriving DecidableEq, Repr

/-- Whether a record is a terminal marker (`done` or `error`). -/
def ScanMsg.isTerminal : ScanMsg → Bool
  | .repo _ => false
  | .done _ => true
  | .error _ => true

/-- Whether a record is a per-repository record. -/
def ScanMsg.isRepoRecord : ScanMsg → Bool
  | .repo _ => true
  | .done _ => false
  | .error _ => false

/-- Insert a repo into a name-sorted list. -/
def insertByName (r : GitRepo) : List GitRepo → List GitRepo
  | [] => [r]
  | x :: xs => if r.name ≤ x.name then r :: x :: xs else x :: insertByName r xs

/-- Embeds `repos.sort((a, b) => a.name.localeCompare(b.name))`; the
locale order is modelled by the string order — only the length of the
accumulator reaches the protocol (in the `done` total). -/
def sortByName : List GitRepo → List GitRepo
  | [] => []
  | x :: xs => insertByName x (sortByName xs)

/-- The mutable state of one scan invocation of the `loader`: the
scan-scoped dedup set, the sorted accumulator, and the records enqueued
so far. -/
structure LoaderState where
  seenPaths : List (List String)
  repos : List GitRepo
  out : List ScanMsg
deriving DecidableEq, Repr

/-- Embeds the `Stream.runForEach` body of the `loader`: skip a repo whose
path is already in `seenPaths`, otherwise record the path, insert into the
sorted accumulator and enqueue one `repo` record. -/
def loaderStep (st : LoaderState) (repo : GitRepo) : LoaderState :=
  if repo.path ∈ st.seenPaths then st
  else
    { seenPaths := st.seenPaths ++ [repo.path]
      repos := sortByName (st.repos ++ [repo])
      out := st.out ++ [ScanMsg.repo repo] }

/-- Run the `loader` fold over the merged stream, starting from the fresh
scan-scoped state. -/
def loaderRun (merged : List GitRepo) : LoaderState :=
  merged.foldl loaderStep ⟨[], [], []⟩

/-- Embeds the full record stream of one scan invocation: the enqueued
repo records followed by the terminal marker — the `done` record carrying
`repos.length` when the effect succeeds, the single `error` record from
`Effect.catchAll` when it fails (in which case `merged` is the prefix
consumed before the failure and no `done` is enqueued). -/
def loaderOutput (merged : List GitRepo) (failure : Option String) : List ScanMsg :=
  match failure with
  | none => (loaderRun merged).out ++ [ScanMsg.done (loaderRun merged).repos.length]
  | some msg => (loaderRun merged).out ++ [ScanMsg.error msg]

/-- The concatenation of the per-root scans
(`config.repoScanRoots.map((root) => scanForReposStream(git, root, maxDepth))`
before merging). -/
def scansOfRoots (fsRoot : Fs) (maxDepth : Nat) : List (List String) → List GitRepo
  | [] => []
  | root :: rest => scanRoot fsRoot root maxDepth ++ scansOfRoots fsRoot maxDepth rest

/-- First-occurrence deduplication by path with an explicit seen set; the
specification-side description of what the `loader` fold keeps. -/
def dedupByPath : List GitRepo → List (List String) → List GitRepo
  | [], _ => []
  | r :: rest, seen =>
      if r.path ∈ seen then dedupByPath rest seen
      else r :: dedupByPath rest (seen ++ [r.path])

/-- The paths of the repo records in a record stream. -/
def repoPathsOf (out : List ScanMsg) : List (List String) :=
  out.filterMap fun m =>
    match m with
    | .repo r => some r.path
    | .done _ => none
    | .error _ => none

theorem length_insertByName (r : GitRepo) (l : List GitRepo) :
    (insertByName r l).length = l.length + 1 := by
  induction l with
  | nil => rfl
  | cons x xs ih =>
      simp only [insertByName]
      split
      · simp
      · simp [ih]

theorem length_sortByName (l : List GitRepo) :
    (sortByName l).length = l.length := by
  induction l with
  | nil => rfl
  | cons x xs ih => simp [sortByName, length_insertByName, ih]

theorem loaderRun_characterization (merged : List GitRepo) (st : LoaderState) :
    (merged.foldl loaderStep st).out
        = st.out ++ (dedupByPath merged st.seenPaths).map ScanMsg.repo ∧
    (merged.foldl loaderStep st).repos.length
        = st.repos.length + (dedupByPath merged st.seenPaths).length ∧
    (merged.foldl loaderStep st).seenPaths
        = st.seenPaths ++ (dedupByPath merged st.seenPaths).map (fun r => r.path) := by
  induction merged generalizing st with
  | nil => simp [dedupByPath]
  | cons r rest ih =>
      by_cases h : r.path ∈ st.seenPaths
      · have hstep : loaderStep st r = st := by simp [loaderStep, h]
        simp only [List.foldl_cons, hstep, dedupByPath, if_pos h]
        exact ih st
      · have hstep : loaderStep st r =
            { seenPaths := st.seenPaths ++ [r.path]
              repos := sortByName (st.repos ++ [r])
              out := st.out ++ [ScanMsg.repo r] } := by
          simp [loaderStep, h]
        simp only [List.foldl_cons, hstep, dedupByPath, if_neg h]
        rcases ih { seenPaths := st.seenPaths ++ [r.path]
                    repos := sortByName (st.repos ++ [r])
                    out := st.out ++ [ScanMsg.repo r] } with ⟨h1, h2, h3⟩
        refine ⟨?_, ?_, ?_⟩
        · simp only [h1]; simp
        · simp only [h2]; simp [length_sortByName]; omega
        · simp only [h3]; simp

theorem mem_dedupByPath (l : List GitRepo) (seen : List (List String)) (p : List String) :
    p ∈ (dedupByPath l seen).map (fun r => r.path) ↔
      p ∈ l.map (fun r => r.path) ∧ p ∉ seen := by
  induction l generalizing seen with
  | nil => simp [dedupByPath]
  | cons r rest ih =>
      by_cases h : r.path ∈ seen
      · simp only [dedupByPath, if_pos h, ih, List.map_cons, List.mem_cons]
        constructor
        · rintro ⟨hm, hs⟩; exact ⟨Or.inr hm, hs⟩
        · rintro ⟨hm | hm, hs⟩
          · exact absurd (hm ▸ h) hs
          · exact ⟨hm, hs⟩
      · simp only [dedupByPath, if_neg h, List.map_cons, List.mem_cons, ih]
        constructor
        · rintro (hm | ⟨hm, hs⟩)
          · exact ⟨Or.inl hm, hm ▸ h⟩
          · refine ⟨Or.inr hm, fun hseen => hs (List.mem_append_left _ hseen)⟩
        · rintro ⟨hm | hm, hs⟩
          · exact Or.inl hm
          · by_cases hp : p = r.path
            · exact Or.inl hp
            · refine Or.inr ⟨hm, fun hmem => ?_⟩
              rcases List.mem_append.mp hmem with h1 | h1
              · exact hs h1
              · simp at h1; exact hp h1

theorem nodup_dedupByPath (l : List GitRepo) (seen : List (List String)) :
    ((dedupByPath l seen).map (fun r => r.path)).Nodup := by
  induction l generalizing seen with
  | nil => simp [dedupByPath]
  | cons r rest ih =>
      by_cases h : r.path ∈ seen
      · simp only [dedupByPath, if_pos h]; exact ih seen
      · simp only [dedupByPath, if_neg h, List.map_cons, List.nodup_cons]
        refine ⟨fun hmem => ?_, ih _⟩
        have := (mem_dedupByPath rest (seen ++ [r.path]) r.path).mp hmem
        exact this.2 (List.mem_append_right _ (by simp))

theorem countP_eq_one_of_nodup_mem {α : Type} [DecidableEq α] {l : List α} {a : α}
    (d : l.Nodup) (h : a ∈ l) : l.countP (fun q => decide (q = a)) = 1 := by
  induction l with
  | nil => cases h
  | cons x xs ih =>
      rcases List.nodup_cons.mp d with ⟨hx, hxs⟩
      rcases List.mem_cons.mp h with h1 | h1
      · subst h1
        rw [List.countP_cons]
        have hz : xs.countP (fun q => decide (q = a)) = 0 := by
          rw [List.countP_eq_zero]
          intro q hq
          simp only [decide_eq_true_eq]
          intro hqa; subst hqa; exact hx hq
        simp [hz]
      · rw [List.countP_cons]
        have hxa : ¬ (x = a) := by
          intro hxa; subst hxa; exact hx h1
        simp [hxa, ih hxs h1]

theorem loaderRun_out (merged : List GitRepo) :
    (loaderRun merged).out = (dedupByPath merged []).map ScanMsg.repo := by
  have h := (loaderRun_characterization merged ⟨[], [], []⟩).1
  simpa [loaderRun] using h

theorem loaderRun_repos_length (merged : List GitRepo) :
    (loaderRun merged).repos.length = (dedupByPath merged []).length := by
  have h := (loaderRun_characterization merged ⟨[], [], []⟩).2.1
  simpa [loaderRun] using h

theorem repoPathsOf_map_repo (l : List GitRepo) :
    repoPathsOf (l.map ScanMsg.repo) = l.map (fun r => r.path) := by
  induction l with
  | nil => rfl
  | cons x xs ih => simp [repoPathsOf, List.filterMap_cons] at ih ⊢; exact ih

theorem mem_scansOfRoots (fsRoot : Fs) (maxDepth : Nat) (roots : List (List String))
    (p : List String) :
    p ∈ (scansOfRoots fsRoot maxDepth roots).map (fun r => r.path) ↔
      ∃ root ∈ roots, p ∈ (scanRoot fsRoot root maxDepth).map (fun r => r.path) := by
  induction roots with
  | nil => simp [scansOfRoots]
  | cons root rest ih =>
      simp only [scansOfRoots, List.map_append, List.mem_append, ih, List.mem_cons]
      constructor
      · rintro (h | ⟨r', hr', hp⟩)
        · exact ⟨root, Or.inl rfl, h⟩
        · exact ⟨r', Or.inr hr', hp⟩
      · rintro ⟨r', hr' | hr', hp⟩
        · subst hr'; exact Or.inl hp
        · exact Or.inr ⟨r', hr', hp⟩

/-- C8: every discovery scan's record stream ends with exactly one
terminal marker.  On success the stream is the deduplicated repo records
followed by a single `done` record whose total equals the number of repo
records, with nothing after it; on failure after consuming `merged`, a
single `error` record replaces the `done` (no `done` record anywhere) and
the repo records already emitted are untouched. -/
theorem discovery_stream_terminal (merged : List GitRepo) (msg : String) :
    loaderOutput merged none
        = (dedupByPath merged []).map ScanMsg.repo
            ++ [ScanMsg.done (dedupByPath merged []).length] ∧
    loaderOutput merged (some msg)
        = (dedupByPath merged []).map ScanMsg.repo ++ [ScanMsg.error msg] ∧
    (loaderOutput merged none).countP (fun m => m.isTerminal) = 1 ∧
    (loaderOutput merged (some msg)).countP (fun m => m.isTerminal) = 1 ∧
    (∀ n, ScanMsg.done n ∉ loaderOutput merged (some msg)) ∧
    (loaderOutput merged none).countP (fun m => m.isRepoRecord)
        = (dedupByPath merged []).length := by
  have hout : loaderOutput merged none
      = (dedupByPath merged []).map ScanMsg.repo
          ++ [ScanMsg.done (dedupByPath merged []).length] := by
    simp [loaderOutput, loaderRun_out, loaderRun_repos_length]
  have herr : loaderOutput merged (some msg)
      = (dedupByPath merged []).map ScanMsg.repo ++ [ScanMsg.error msg] := by
    simp [loaderOutput, loaderRun_out]
  refine ⟨hout, herr, ?_, ?_, ?_, ?_⟩
  · rw [hout]
    simp [List.countP_append, List.countP_map, Function.comp, ScanMsg.isTerminal,
      List.countP_eq_zero]
  · rw [herr]
    simp [List.countP_append, List.countP_map, Function.comp, ScanMsg.isTerminal,
      List.countP_eq_zero]
  · intro n hmem
    rw [herr] at hmem
    rcases List.mem_append.mp hmem with h | h
    · rcases List.mem_map.mp h with ⟨r, _, hr⟩
      cases hr
    · simp at h
  · rw [hout]
    simp [List.countP_append, List.countP_map, Function.comp, ScanMsg.isRepoRecord,
      List.countP_eq_length]

/-- C7: for every filesystem, every set of scan roots (overlapping
subtrees included) and every interleaving the concurrent merge produces,
the loader emits pairwise-distinct repository paths; a path is emitted iff
some root's scan reaches it, and any repository that reaches the merged
stream — e.g. one reachable from two roots — is emitted in exactly one
repo record. -/
theorem discovery_dedup_across_roots (fsRoot : Fs) (roots : List (List String))
    (maxDepth : Nat) (merged : List GitRepo)
    (hperm : merged.Perm (scansOfRoots fsRoot maxDepth roots)) :
    (repoPathsOf (loaderRun merged).out).Nodup ∧
    (∀ p, p ∈ repoPathsOf (loaderRun merged).out ↔
        ∃ root ∈ roots, p ∈ (scanRoot fsRoot root maxDepth).map (fun r => r.path)) ∧
    (∀ p, p ∈ merged.map (fun r => r.path) →
        (repoPathsOf (loaderRun merged).out).countP (fun q => decide (q = p)) = 1) := by
  have hpaths : repoPathsOf (loaderRun merged).out
      = (dedupByPath merged []).map (fun r => r.path) := by
    rw [loaderRun_out, repoPathsOf_map_repo]
  have hnodup : (repoPathsOf (loaderRun merged).out).Nodup := by
    rw [hpaths]; exact nodup_dedupByPath merged []
  have hmem : ∀ p, p ∈ repoPathsOf (loaderRun merged).out ↔
      p ∈ merged.map (fun r => r.path) := by
    intro p
    rw [hpaths, mem_dedupByPath]
    simp
  refine ⟨hnodup, fun p => ?_, fun p hp => ?_⟩
  · rw [hmem p]
    rw [(hperm.map (fun r => r.path)).mem_iff]
    exact mem_scansOfRoots fsRoot maxDepth roots p
  · exact countP_eq_one_of_nodup_mem hnodup ((hmem p).mpr hp)

/-- C7 witness: a concrete scan with the two overlapping roots `[]` and
`["a"]` of `fsSample` (both reach the repository at `a/b`) emits
pairwise-distinct paths. -/
theorem discovery_dedup_across_roots_witness :
    (repoPathsOf (loaderRun (scansOfRoots fsSample 5 [[], ["a"]])).out).Nodup :=
  (discovery_dedup_across_roots fsSample [[], ["a"]] 5
    (scansOfRoots fsSample 5 [[], ["a"]]) (List.Perm.refl _)).1

/-! Depth behaviour of the scanner (C2).  The guard `depth > maxDepth`
runs at the start of each directory scan, and a scan at depth `k` emits
the repositories found among the *children* of its directory, so a scan
rooted at depth 0 can emit repositories up to `maxDepth + 1` path
segments below the root. -/

mutual
def Fs.nodeCount : Fs → Nat
  | .file => 1
  | .dir _ _ es => es.nodeCount + 1
def EntryList.nodeCount : EntryList → Nat
  | .nil => 1
  | .cons _ c rest => c.nodeCount + rest.nodeCount + 1
end

theorem scan_path_bound_aux :
    ∀ n : Nat,
      (∀ fs : Fs, ∀ dirPath maxDepth depth r, fs.nodeCount ≤ n →
         r ∈ scanForRepos fs dirPath maxDepth depth →
         dirPath.length < r.path.length ∧
           r.path.length + depth ≤ dirPath.length + maxDepth + 1) ∧
      (∀ es : EntryList, ∀ dirPath maxDepth depth r, es.nodeCount ≤ n →
         depth ≤ maxDepth →
         r ∈ scanEntries es dirPath maxDepth depth →
         dirPath.length < r.path.length ∧
           r.path.length + depth ≤ dirPath.length + maxDepth + 1) := by
  intro n
  induction n using Nat.strong_induction_on with
  | _ n ih =>
    constructor
    · intro fs dirPath maxDepth depth r hsize hmem
      rw [scanForRepos.eq_def] at hmem
      by_cases hd : depth > maxDepth
      · rw [if_pos hd] at hmem; cases hmem
      · rw [if_neg hd] at hmem
        cases fs with
        | file => cases hmem
        | dir isRepo readable es =>
            dsimp only at hmem
            by_cases hr : readable = true
            · rw [if_pos hr] at hmem
              have hcount : es.nodeCount < n := by
                have : Fs.nodeCount (.dir isRepo readable es) = es.nodeCount + 1 := by
                  rw [Fs.nodeCount]
                omega
              exact (ih es.nodeCount hcount).2 es dirPath maxDepth depth r
                (le_refl _) (Nat.le_of_not_lt hd) hmem
            · rw [if_neg hr] at hmem; cases hmem
    · intro es dirPath maxDepth depth r hsize hdep hmem
      cases es with
      | nil => rw [scanEntries] at hmem; cases hmem
      | cons name child rest =>
          rw [scanEntries] at hmem
          have hchild : child.nodeCount < n := by
            have : EntryList.nodeCount (.cons name child rest)
                = child.nodeCount + rest.nodeCount + 1 := by
              rw [EntryList.nodeCount]
            have hpos : 0 < rest.nodeCount := by
              cases rest <;> rw [EntryList.nodeCount] <;> omega
            omega
          have hrest : rest.nodeCount < n := by
            have : EntryList.nodeCount (.cons name child rest)
                = child.nodeCount + rest.nodeCount + 1 := by
              rw [EntryList.nodeCount]
            have hpos : 0 < child.nodeCount := by
              cases child <;> rw [Fs.nodeCount] <;> omega
            omega
          rcases List.mem_append.mp hmem with hleft | hright
          · by_cases hk : keepEntry name child = true
            · rw [if_pos hk] at hleft
              by_cases hrepo : child.isGitRepo = true
              · rw [if_pos hrepo] at hleft
                have : r = ⟨dirPath ++ [name], name⟩ := by
                  simpa using hleft
                subst this
                simp only [List.length_append, List.length_cons, List.length_nil]
                omega
              · rw [if_neg hrepo] at hleft
                have hb := (ih child.nodeCount hchild).1 child (dirPath ++ [name])
                  maxDepth (depth + 1) r (le_refl _) hleft
                rcases hb with ⟨hb1, hb2⟩
                simp only [List.length_append, List.length_cons, List.length_nil] at hb1 hb2
                constructor <;> omega
            · rw [if_neg hk] at hleft; cases hleft
          · exact (ih rest.nodeCount hrest).2 rest dirPath maxDepth depth r
              (le_refl _) hdep hright

/-- A chain of nested directories ending in a git repository:
`chainFs 0` is a repository, `chainFs (n+1)` a plain directory holding
`chainFs n` under the name `sub`. -/
def chainFs : Nat → Fs
  | 0 => .dir true true .nil
  | n + 1 => .dir false true (.cons "sub" (chainFs n) .nil)

theorem keepEntry_dir (name : String) (a b : Bool) (es : EntryList)
    (h1 : name ∉ IGNORED_DIRS) (h2 : startsWithDot name = false) :
    keepEntry name (Fs.dir a b es) = true := by
  simp [keepEntry, Fs.isDirectory, h1, h2]

theorem chainFs_scan :
    ∀ n dirPath maxDepth depth, depth + n ≤ maxDepth →
      scanForRepos (chainFs (n + 1)) dirPath maxDepth depth
        = [⟨dirPath ++ List.replicate (n + 1) "sub", "sub"⟩] := by
  intro n
  induction n with
  | zero =>
      intro dirPath maxDepth depth h
      have hd : ¬ depth > maxDepth := by omega
      rw [chainFs, scanForRepos, if_neg hd, if_pos rfl, scanEntries, scanEntries]
      have hk : keepEntry "sub" (chainFs 0) = true := by
        rw [chainFs]; decide
      rw [if_pos hk]
      have hrepo : (chainFs 0).isGitRepo = true := by rw [chainFs]; rfl
      rw [if_pos hrepo]
      simp
  | succ n ihn =>
      intro dirPath maxDepth depth h
      have hd : ¬ depth > maxDepth := by omega
      rw [chainFs, scanForRepos, if_neg hd, if_pos rfl, scanEntries, scanEntries]
      have hk : keepEntry "sub" (chainFs (n + 1)) = true := by
        rw [chainFs]
        exact keepEntry_dir "sub" false true _ (by decide) (by decide)
      rw [if_pos hk]
      have hrepo : ¬ (chainFs (n + 1)).isGitRepo = true := by
        rw [chainFs]; simp [Fs.isGitRepo]
      rw [if_neg hrepo]
      rw [ihn (dirPath ++ ["sub"]) maxDepth (depth + 1) (by omega)]
      simp [List.replicate_succ]

theorem scan_fsSample_eval : scanForRepos fsSample [] 1 0 = [⟨["a", "b"], "b"⟩] := by
  rw [fsSample, scanForRepos]
  norm_num
  rw [scanEntries, scanEntries]
  have hk : keepEntry "a" (.dir false true (.cons "b" (.dir true true .nil) .nil))
      = true := by decide
  rw [if_pos hk]
  have hrepo : ¬ (Fs.dir false true (.cons "b" (.dir true true .nil) .nil)).isGitRepo
      = true := by decide
  rw [if_neg hrepo, scanForRepos]
  norm_num
  rw [scanEntries, scanEntries]
  have hk2 : keepEntry "b" (.dir true true .nil) = true := by decide
  rw [if_pos hk2]
  rfl

/-- C2 counterexample: with `maxDepth = 1`, the scanner emits the
repository `a/b` of `fsSample`, which lies 2 directory levels below the
root — more than `maxDepth` levels — so the claimed inclusive bound at
`d` levels is false on the code. -/
theorem scan_depth_claim_counterexample :
    (⟨["a", "b"], "b"⟩ : GitRepo) ∈ scanForRepos fsSample [] 1 0 ∧
      1 < (GitRepo.mk ["a", "b"] "b").path.length := by
  constructor
  · rw [scan_fsSample_eval]; exact List.mem_singleton.mpr rfl
  · decide

/-- C2 amended: the depth bound of the scanner is inclusive at
`maxDepth + 1` directory levels below a root, not at `maxDepth`: every
emitted repository lies between 1 and `maxDepth + 1` path segments below
its root, and for every `d` some filesystem has a repository exactly
`d + 1` levels below the root that the scan at `maxDepth = d` emits. -/
theorem scan_depth_bound_amended :
    (∀ (fsRoot : Fs) (root : List String) (maxDepth : Nat) (r : GitRepo),
        r ∈ scanForRepos fsRoot root maxDepth 0 →
        root.length < r.path.length ∧
          r.path.length ≤ root.length + (maxDepth + 1)) ∧
    (∀ d : Nat, ∃ (fsRoot : Fs) (r : GitRepo),
        r ∈ scanForRepos fsRoot [] d 0 ∧ r.path.length = d + 1) := by
  constructor
  · intro fsRoot root maxDepth r hmem
    have h := (scan_path_bound_aux fsRoot.nodeCount).1 fsRoot root maxDepth 0 r
      (le_refl _) hmem
    omega
  · intro d
    refine ⟨chainFs (d + 1), ⟨List.replicate (d + 1) "sub", "sub"⟩, ?_, by simp⟩
    rw [chainFs_scan d [] d 0 (by omega)]
    simp

/-- C2 witness: the amended bound applied to the concrete scan of
`fsSample` at `maxDepth = 1`, whose emitted repository `a/b` lies 2 levels
below the root. -/
theorem scan_depth_bound_amended_witness :
    ([] : List String).length < (GitRepo.mk ["a", "b"] "b").path.length ∧
      (GitRepo.mk ["a", "b"] "b").path.length ≤ ([] : List String).length + (1 + 1) :=
  scan_depth_bound_amended.1 fsSample [] 1 (GitRepo.mk ["a", "b"] "b")
    (by rw [scan_fsSample_eval]; exact List.mem_singleton.mpr rfl)

/-! Hunks and `getActualChangedLineRange` (diff-viewer.tsx).  A hunk's
content blocks are either context (contiguous unchanged lines) or change
blocks (paired removed/added line groups); only the lengths of the line
groups matter to the walk. -/

inductive HunkContent where
  | context (lines : List String)
  | change (deletions additions : List String)
deriving DecidableEq, Repr

/-- Embeds the `Hunk` fields read by `getActualChangedLineRange`. -/
structure Hunk where
  additionStart : Nat
  additionLines : Nat
  hunkContent : List HunkContent
deriving DecidableEq, Repr

/-- The loop of `getActualChangedLineRange`: walk the blocks accumulating
the addition-side line number; a context block advances by its line count,
a change block with additions records the first changed line on first
encounter and sets the last changed line to the line before the advanced
counter; change blocks without additions are skipped. -/
def walkHunk : Nat → Option Nat → Option Nat → List HunkContent → Option Nat × Option Nat
  | _, firstChangeLine, lastChangeLine, [] => (firstChangeLine, lastChangeLine)
  | lineNumber, firstChangeLine, lastChangeLine, .context lines :: rest =>
      walkHunk (lineNumber + lines.length) firstChangeLine lastChangeLine rest
  | lineNumber, firstChangeLine, lastChangeLine, .change _ additions :: rest =>
      if additions.length > 0 then
        walkHunk (lineNumber + additions.length)
          (match firstChangeLine with
           | none => some lineNumber
           | some f => some f)
          (some (lineNumber + additions.length - 1)) rest
      else
        walkHunk lineNumber firstChangeLine lastChangeLine rest

/-- Embeds `getActualChangedLineRange` from diff-viewer.tsx, including the
fallback to the nominal range `[additionStart, additionStart +
additionLines - 1]` when the walk found no added lines. -/
def getActualChangedLineRange (hunk : Hunk) : Nat × Nat :=
  match walkHunk hunk.additionStart none none hunk.hunkContent with
  | (firstChangeLine, lastChangeLine) =>
      (firstChangeLine.getD hunk.additionStart,
       lastChangeLine.getD (hunk.additionStart + hunk.additionLines - 1))

/-- Whether no block of the list carries added lines. -/
def hasNoAdditions (blocks : List HunkContent) : Bool :=
  blocks.all fun b =>
    match b with
    | .context _ => true
    | .change _ additions => additions.isEmpty

theorem walkHunk_no_additions (blocks : List HunkContent) :
    hasNoAdditions blocks = true →
    ∀ lineNumber firstChangeLine lastChangeLine,
      walkHunk lineNumber firstChangeLine lastChangeLine blocks
        = (firstChangeLine, lastChangeLine) := by
  induction blocks with
  | nil => intro _ _ _ _; rfl
  | cons b rest ih =>
      intro h ln f l
      rw [hasNoAdditions, List.all_cons, Bool.and_eq_true] at h
      cases b with
      | context lines =>
          rw [walkHunk]
          exact ih h.2 _ _ _
      | change dels adds =>
          have hadds : adds.isEmpty = true := h.1
          have hrest : hasNoAdditions rest = true := h.2
          rw [walkHunk.eq_def]
          dsimp only
          have hlen : ¬ adds.length > 0 := by
            cases adds with
            | nil => simp
            | cons x xs => simp [List.isEmpty] at hadds
          rw [if_neg hlen]
          exact ih hrest _ _ _

/-- C5: the hunk walk of `getActualChangedLineRange`.  The concrete
scenario (additionStart 50, two leading context lines, then a change
block adding 4 lines) yields start 52 and end 55; a hunk none of whose
blocks add lines falls back to the nominal range `[additionStart,
additionStart + additionLines - 1]`; and in general a leading context
block followed by an addition-bearing change block (and no further
additions) puts the first changed line right after the context and the
last changed line `additions - 1` further on. -/
theorem actual_changed_line_range_spec :
    getActualChangedLineRange
        ⟨50, 6, [.context ["c1", "c2"], .change [] ["a1", "a2", "a3", "a4"]]⟩
      = (52, 55) ∧
    (∀ hunk : Hunk, hasNoAdditions hunk.hunkContent = true →
        getActualChangedLineRange hunk
          = (hunk.additionStart, hunk.additionStart + hunk.additionLines - 1)) ∧
    (∀ (s n : Nat) (ctx dels adds : List String) (rest : List HunkContent),
        adds ≠ [] → hasNoAdditions rest = true →
        getActualChangedLineRange ⟨s, n, .context ctx :: .change dels adds :: rest⟩
          = (s + ctx.length, s + ctx.length + adds.length - 1)) := by
  refine ⟨by decide, ?_, ?_⟩
  · intro hunk h
    rw [getActualChangedLineRange]
    rw [walkHunk_no_additions hunk.hunkContent h]
    rfl
  · intro s n ctx dels adds rest hadds hrest
    have hlen : adds.length > 0 := by
      cases adds with
      | nil => exact absurd rfl hadds
      | cons x xs => simp
    rw [getActualChangedLineRange]
    rw [walkHunk]
    rw [walkHunk.eq_def]
    dsimp only
    rw [if_pos hlen]
    rw [walkHunk_no_additions rest hrest]
    rfl

/-- C5 witness: the fallback and leading-context conjuncts applied at
concrete hunks. -/
theorem actual_changed_line_range_spec_witness :
    getActualChangedLineRange ⟨10, 3, [.context ["x"]]⟩ = (10, 12) ∧
    getActualChangedLineRange
        ⟨50, 6, [.context ["c1", "c2"], .change [] ["a1", "a2", "a3", "a4"]]⟩
      = (52, 55) :=
  ⟨actual_changed_line_range_spec.2.1 ⟨10, 3, [.context ["x"]]⟩ (by decide),
   actual_changed_line_range_spec.2.2 50 6 ["c1", "c2"] [] ["a1", "a2", "a3", "a4"] []
     (by decide) (by decide)⟩

/-! Auto-collapse policy and one-time auto-expand initialization
(diff-viewer.tsx). -/

/-- Embeds `DEFAULT_EXPANDED_COUNT` from diff-viewer.tsx. -/
def DEFAULT_EXPANDED_COUNT : Nat := 10

/-- Embeds `DEFAULT_LARGE_FILE_THRESHOLD` from diff-viewer.tsx. -/
def DEFAULT_LARGE_FILE_THRESHOLD : Nat := 500

/-- Embeds the JS `suffix.test(path)` for the suffix-anchored literal
regexes of `AUTO_COLLAPSE_PATTERNS`: the pattern text (dots unescaped) is
a suffix of the path. -/
def strEndsWith (s suffix : String) : Bool :=
  decide (suffix.data.length ≤ s.data.length) &&
    decide (s.data.drop (s.data.length - suffix.data.length) = suffix.data)

/-- Embeds `AUTO_COLLAPSE_PATTERNS` from diff-viewer.tsx; every pattern in
the source is a suffix-anchored literal regex (e.g.
`/package-lock\.json$/`), so each is embedded as its literal suffix. -/
def AUTO_COLLAPSE_PATTERNS : List String :=
  ["package-lock.json", "yarn.lock", "pnpm-lock.yaml", "npm-shrinkwrap.json",
   "Gemfile.lock", "Cargo.lock", "composer.lock",
   "Pipfile.lock", "poetry.lock", "pdm.lock", "uv.lock",
   "packages.lock.json", "go.sum", "mix.lock",
   "Podfile.lock", "Package.resolved", ".lock", ".lockb"]

/-- Embeds `shouldAutoCollapseFile` from diff-viewer.tsx: collapse when
the path matches an auto-collapse pattern, or when the total change count
strictly exceeds the threshold. -/
def shouldAutoCollapseFile (filePath : String) (totalChanges threshold : Nat) : Bool :=
  if AUTO_COLLAPSE_PATTERNS.any (fun pattern => strEndsWith filePath pattern) then true
  else if totalChanges > threshold then true
  else false

/-- The `{path, additions, deletions}` file metadata (`DiffFile`) the
viewer receives. -/
structure DiffFile where
  path : String
  additions : Nat
  deletions : Nat
deriving DecidableEq, Repr

/-- A parsed file as the initialization effect sees it: the `name` /
`prevName` fields of the parsed diff (absent or empty strings fall
through, as with the JS `||` chain). -/
structure ParsedFile where
  name : Option String
  prevName : Option String
deriving DecidableEq, Repr

/-- Embeds the JS `a || b` fallback on optional strings (`undefined` and
the empty string are falsy). -/
def jsStringOr (a : Option String) (b : String) : String :=
  match a with
  | some s => if s = "" then b else s
  | none => b

/-- Embeds `allFiles[i].name || allFiles[i].prevName || ` followed by the
index placeholder, the path derivation used by the viewer. -/
def filePathOf (f : ParsedFile) (i : Nat) : String :=
  jsStringOr f.name (jsStringOr f.prevName ("file-" ++ toString i))

/-- Embeds the `fileMetadataMap` memo: fold the file list into a map from
path to its additions/deletions pair (later entries overwrite). -/
def buildFileMetadataMap (files : List DiffFile) : List (String × (Nat × Nat)) :=
  files.foldl (fun m f => aset f.path (f.additions, f.deletions) m) []

/-- Embeds the `totalChanges` computation of the initialization effect:
the metadata lookup, defaulting to 0 when the path has no metadata. -/
def totalChangesOf (metaMap : List (String × (Nat × Nat))) (filePath : String) : Nat :=
  match alookup filePath metaMap with
  | some md => md.1 + md.2
  | none => 0

/-- Embeds the initialization `for` loop of `DiffViewerClient`: walk the
parsed files with index `i` and counter `expandedCount`, stop once the
counter reaches `DEFAULT_EXPANDED_COUNT`, skip auto-collapsed files
without counting them, and add every other path to the expanded set
(a JS `Set.add`, i.e. append-if-absent) while counting it. -/
def initExpandedGo (metaMap : List (String × (Nat × Nat))) (threshold : Nat) :
    Nat → Nat → List String → List ParsedFile → List String
  | _, _, acc, [] => acc
  | i, expandedCount, acc, f :: rest =>
      if DEFAULT_EXPANDED_COUNT ≤ expandedCount then acc
      else
        let filePath := filePathOf f i
        if shouldAutoCollapseFile filePath (totalChangesOf metaMap filePath) threshold then
          initExpandedGo metaMap threshold (i + 1) expandedCount acc rest
        else
          initExpandedGo metaMap threshold (i + 1) (expandedCount + 1)
            (if filePath ∈ acc then acc else acc ++ [filePath]) rest

/-- The expanded set the one-time initialization dispatches
(`SET_EXPANDED_FILES` payload). -/
def initialExpandedFiles (allFiles : List ParsedFile)
    (metaMap : List (String × (Nat × Nat))) (threshold : Nat) : List String :=
  initExpandedGo metaMap threshold 0 0 [] allFiles

/-- Specification-side description: the derived paths of the files, in
diff order, that are not auto-collapsed, starting at index `i`. -/
def nonCollapsedPathsFrom (metaMap : List (String × (Nat × Nat))) (threshold : Nat) :
    Nat → List ParsedFile → List String
  | _, [] => []
  | i, f :: rest =>
      let p := filePathOf f i
      if shouldAutoCollapseFile p (totalChangesOf metaMap p) threshold then
        nonCollapsedPathsFrom metaMap threshold (i + 1) rest
      else p :: nonCollapsedPathsFrom metaMap threshold (i + 1) rest

/-- Add a list of paths to a JS `Set` modelled as a duplicate-free
insertion-ordered list. -/
def addToSet (acc : List String) (paths : List String) : List String :=
  paths.foldl (fun a p => if p ∈ a then a else a ++ [p]) acc

theorem mem_addToSet (paths : List String) (acc : List String) (p : String) :
    p ∈ addToSet acc paths ↔ p ∈ acc ∨ p ∈ paths := by
  induction paths generalizing acc with
  | nil => simp [addToSet]
  | cons q rest ih =>
      simp only [addToSet, List.foldl_cons] at ih ⊢
      by_cases hq : q ∈ acc
      · rw [if_pos hq, ih]
        constructor
        · rintro (h | h)
          · exact Or.inl h
          · exact Or.inr (List.mem_cons_of_mem _ h)
        · rintro (h | h)
          · exact Or.inl h
          · rcases List.mem_cons.mp h with h1 | h1
            · exact Or.inl (h1 ▸ hq)
            · exact Or.inr h1
      · rw [if_neg hq, ih]
        constructor
        · rintro (h | h)
          · rcases List.mem_append.mp h with h1 | h1
            · exact Or.inl h1
            · simp at h1; exact Or.inr (List.mem_cons.mpr (Or.inl h1))
          · exact Or.inr (List.mem_cons_of_mem _ h)
        · rintro (h | h)
          · exact Or.inl (List.mem_append_left _ h)
          · rcases List.mem_cons.mp h with h1 | h1
            · exact Or.inl (List.mem_append_right _ (by simp [h1]))
            · exact Or.inr h1

theorem initExpandedGo_characterization (metaMap : List (String × (Nat × Nat)))
    (threshold : Nat) (files : List ParsedFile) :
    ∀ i expandedCount acc,
      initExpandedGo metaMap threshold i expandedCount acc files
        = addToSet acc ((nonCollapsedPathsFrom metaMap threshold i files).take
            (DEFAULT_EXPANDED_COUNT - expandedCount)) := by
  induction files with
  | nil => intro i c acc; simp [initExpandedGo, nonCollapsedPathsFrom, addToSet]
  | cons f rest ih =>
      intro i c acc
      rw [initExpandedGo, nonCollapsedPathsFrom]
      by_cases hc : DEFAULT_EXPANDED_COUNT ≤ c
      · rw [if_pos hc]
        have hz : DEFAULT_EXPANDED_COUNT - c = 0 := by omega
        rw [hz]
        simp [addToSet]
      · rw [if_neg hc]
        dsimp only
        by_cases hcol : shouldAutoCollapseFile (filePathOf f i)
            (totalChangesOf metaMap (filePathOf f i)) threshold = true
        · rw [if_pos hcol, if_pos hcol]
          exact ih (i + 1) c acc
        · rw [if_neg hcol, if_neg hcol]
          have hsucc : DEFAULT_EXPANDED_COUNT - c
              = (DEFAULT_EXPANDED_COUNT - (c + 1)) + 1 := by
            have : c < DEFAULT_EXPANDED_COUNT := Nat.lt_of_not_le hc
            omega
          rw [hsucc, List.take_succ_cons]
          rw [ih (i + 1) (c + 1)]
          rfl

/-- C4: the one-time initialization expands exactly the first (up to 10)
non-auto-collapsed file paths in diff order: the dispatched expanded set
is the set of the first `DEFAULT_EXPANDED_COUNT` non-collapsed derived
paths; membership matches that prefix exactly (so auto-collapsed files
are never added and never consume quota); and a file auto-collapses iff
its path matches an auto-collapse pattern or its additions+deletions
strictly exceed the threshold, whose default is 500 with a quota of 10. -/
theorem auto_expand_initialization (allFiles : List ParsedFile)
    (metaMap : List (String × (Nat × Nat))) (threshold : Nat) :
    initialExpandedFiles allFiles metaMap threshold
        = addToSet [] ((nonCollapsedPathsFrom metaMap threshold 0 allFiles).take
            DEFAULT_EXPANDED_COUNT) ∧
    (∀ p, p ∈ initialExpandedFiles allFiles metaMap threshold ↔
        p ∈ (nonCollapsedPathsFrom metaMap threshold 0 allFiles).take
          DEFAULT_EXPANDED_COUNT) ∧
    (∀ filePath totalChanges t,
        shouldAutoCollapseFile filePath totalChanges t = true ↔
          ((∃ pattern ∈ AUTO_COLLAPSE_PATTERNS, strEndsWith filePath pattern = true)
            ∨ totalChanges > t)) ∧
    DEFAULT_EXPANDED_COUNT = 10 ∧ DEFAULT_LARGE_FILE_THRESHOLD = 500 := by
  have hchar := initExpandedGo_characterization metaMap threshold allFiles 0 0 []
  refine ⟨?_, ?_, ?_, rfl, rfl⟩
  · simpa [initialExpandedFiles] using hchar
  · intro p
    rw [initialExpandedFiles, hchar, mem_addToSet]
    simp
  · intro filePath totalChanges t
    rw [shouldAutoCollapseFile]
    by_cases h : AUTO_COLLAPSE_PATTERNS.any (fun pattern => strEndsWith filePath pattern) = true
    · rw [if_pos h]
      simp only [List.any_eq_true] at h
      simp only [true_iff]
      exact Or.inl h
    · rw [if_neg h]
      simp only [List.any_eq_true] at h
      by_cases ht : totalChanges > t
      · simp [ht]
      · simp only [if_neg ht]
        constructor
        · intro hf; cases hf
        · rintro (hpat | hgt)
          · exact absurd hpat h
          · exact absurd hgt ht

/-! The two-level comment index `buildCommentMap` (diff-viewer.tsx):
file path → line number → comments at that line, built over JS `Map`s in
insertion order. -/

/-- The inner map of the comment index: line number → comments. -/
abbrev FileCommentMap : Type := List (Nat × List Comment)

/-- The comment index: `Map` of file path → line number → comments. -/
abbrev CommentMap : Type := List (String × FileCommentMap)

/-- Embeds the line_start indexing step: ensure the line key exists, then
push the comment (unconditionally — the source has no duplicate guard
here). -/
def addAtLineStart (c : Comment) (lineKey : Nat) (fileMap : FileCommentMap) : FileCommentMap :=
  aupdate lineKey (fun lst => lst ++ [c]) (aensure lineKey ([] : List Comment) fileMap)

/-- Embeds the line_end indexing step: ensure the end-line key exists,
then push the comment only if it is not already in that line's list. -/
def addAtLineEnd (c : Comment) (lineEnd : Nat) (fileMap : FileCommentMap) : FileCommentMap :=
  aupdate lineEnd (fun lst => if c ∈ lst then lst else lst ++ [c])
    (aensure lineEnd ([] : List Comment) fileMap)

/-- The mutation one comment performs on its file's inner map: nothing
when `line_start` is null; otherwise index at `line_start`, and
additionally at `line_end` when it is non-null and differs from
`line_start`. -/
def commentFileTransform (c : Comment) (fileMap : FileCommentMap) : FileCommentMap :=
  match c.line_start with
  | none => fileMap
  | some lineKey =>
      let fm1 := addAtLineStart c lineKey fileMap
      match c.line_end with
      | none => fm1
      | some lineEnd => if lineEnd = lineKey then fm1 else addAtLineEnd c lineEnd fm1

/-- Embeds one iteration of the `buildCommentMap` loop: ensure the file's
entry exists (this happens for every comment, before the null check on
`line_start`), then, when `line_start` is non-null, mutate the file's
inner map in place. -/
def addComment (map : CommentMap) (c : Comment) : CommentMap :=
  let map1 : CommentMap := aensure c.file_path ([] : FileCommentMap) map
  match c.line_start with
  | none => map1
  | some _ => aupdate c.file_path (commentFileTransform c) map1

/-- Embeds `buildCommentMap` from diff-viewer.tsx. -/
def buildCommentMap (comments : List Comment) : CommentMap :=
  comments.foldl addComment ([] : CommentMap)

/-- The entry the index holds for file `f` at line `L`, if any. -/
def lineEntry (map : CommentMap) (f : String) (L : Nat) : Option (List Comment) :=
  match alookup f map with
  | none => none
  | some fileMap => alookup L fileMap

theorem lineEntry_eq_getD (map : CommentMap) (f : String) (L : Nat) :
    lineEntry map f L = alookup L ((alookup f map).getD ([] : FileCommentMap)) := by
  rw [lineEntry]
  cases h : alookup f map with
  | none =>
      show (none : Option (List Comment)) = alookup L ([] : List (Nat × List Comment))
      rfl
  | some fm => rfl

theorem alookup_addAtLineStart (c : Comment) (lineKey L : Nat) (fm : FileCommentMap) :
    alookup L (addAtLineStart c lineKey fm) =
      if lineKey = L then some (((alookup L fm).getD []) ++ [c]) else alookup L fm := by
  rw [addAtLineStart, alookup_aupdate, alookup_aensure]
  by_cases h : lineKey = L <;> simp [h]

theorem alookup_addAtLineEnd (c : Comment) (lineEnd L : Nat) (fm : FileCommentMap) :
    alookup L (addAtLineEnd c lineEnd fm) =
      if lineEnd = L then
        some (if c ∈ (alookup L fm).getD [] then (alookup L fm).getD []
              else ((alookup L fm).getD []) ++ [c])
      else alookup L fm := by
  rw [addAtLineEnd, alookup_aupdate, alookup_aensure]
  by_cases h : lineEnd = L <;> simp [h]

theorem alookup_addComment_other (map : CommentMap) (c : Comment) (f : String)
    (h : c.file_path ≠ f) :
    alookup f (addComment map c) = alookup f map := by
  rw [addComment]
  cases hls : c.line_start with
  | none =>
      dsimp only
      rw [alookup_aensure, if_neg h]
  | some lk =>
      dsimp only
      rw [alookup_aupdate, if_neg h, alookup_aensure, if_neg h]

theorem alookup_addComment_self (map : CommentMap) (c : Comment) :
    alookup c.file_path (addComment map c)
      = some (commentFileTransform c ((alookup c.file_path map).getD [])) := by
  rw [addComment]
  cases hls : c.line_start with
  | none =>
      dsimp only
      rw [alookup_aensure, if_pos rfl]
      rw [commentFileTransform, hls]
  | some lk =>
      dsimp only
      rw [alookup_aupdate, if_pos rfl, alookup_aensure, if_pos rfl]
      rfl

theorem isSome_alookup_transform (c : Comment) (lk : Nat) (hls : c.line_start = some lk)
    (fm : FileCommentMap) (L : Nat) :
    (alookup L (commentFileTransform c fm)).isSome ↔
      (alookup L fm).isSome ∨ lk = L ∨ c.line_end = some L := by
  rw [commentFileTransform, hls]
  cases hle : c.line_end with
  | none =>
      dsimp only
      rw [alookup_addAtLineStart]
      by_cases h : lk = L <;> simp [h]
  | some le =>
      dsimp only
      by_cases heq : le = lk
      · rw [if_pos heq]
        rw [alookup_addAtLineStart]
        subst heq
        by_cases h : le = L <;> simp [h]
      · rw [if_neg heq]
        rw [alookup_addAtLineEnd, alookup_addAtLineStart]
        by_cases h1 : le = L
        · simp [h1]
        · by_cases h2 : lk = L <;> simp [h1, h2]

theorem isSome_alookup_addComment (map : CommentMap) (c : Comment) (f : String) :
    (alookup f (addComment map c)).isSome ↔
      (alookup f map).isSome ∨ c.file_path = f := by
  by_cases hf : c.file_path = f
  · subst hf
    rw [alookup_addComment_self]
    simp
  · rw [alookup_addComment_other map c f hf]
    simp [hf]

theorem isSome_lineEntry_addComment (map : CommentMap) (c : Comment) (f : String) (L : Nat) :
    (lineEntry (addComment map c) f L).isSome ↔
      (lineEntry map f L).isSome ∨
        (c.file_path = f ∧ ∃ ls, c.line_start = some ls ∧
          (ls = L ∨ c.line_end = some L)) := by
  by_cases hf : c.file_path = f
  · subst hf
    rw [lineEntry_eq_getD, lineEntry_eq_getD, alookup_addComment_self]
    rw [Option.getD_some]
    cases hls : c.line_start with
    | none =>
        rw [commentFileTransform, hls]
        simp [hls]
    | some lk =>
        rw [isSome_alookup_transform c lk hls]
        simp [hls]
  · rw [lineEntry_eq_getD, lineEntry_eq_getD, alookup_addComment_other map c f hf]
    simp [hf]

theorem buildCommentMap_append_one (l : List Comment) (c : Comment) :
    buildCommentMap (l ++ [c]) = addComment (buildCommentMap l) c := by
  rw [buildCommentMap, buildCommentMap, List.foldl_append]
  rfl

theorem exists_mem_append_one {α : Type} (l : List α) (a : α) (p : α → Prop) :
    (∃ x ∈ l ++ [a], p x) ↔ (∃ x ∈ l, p x) ∨ p a := by
  constructor
  · rintro ⟨x, hx, hp⟩
    rcases List.mem_append.mp hx with h | h
    · exact Or.inl ⟨x, h, hp⟩
    · have hxa := List.mem_singleton.mp h
      subst hxa
      exact Or.inr hp
  · rintro (⟨x, hx, hp⟩ | hp)
    · exact ⟨x, List.mem_append_left _ hx, hp⟩
    · exact ⟨a, List.mem_append_right _ (List.mem_singleton.mpr rfl), hp⟩

theorem buildCommentMap_hasFile (comments : List Comment) (f : String) :
    (alookup f (buildCommentMap comments)).isSome ↔
      ∃ c ∈ comments, c.file_path = f := by
  induction comments using List.reverseRecOn with
  | nil => simp [buildCommentMap, alookup]
  | append_singleton l c ih =>
      rw [buildCommentMap_append_one, isSome_alookup_addComment, ih,
        exists_mem_append_one]

theorem buildCommentMap_lineEntry (comments : List Comment) (f : String) (L : Nat) :
    (lineEntry (buildCommentMap comments) f L).isSome ↔
      ∃ c ∈ comments, c.file_path = f ∧ ∃ ls, c.line_start = some ls ∧
        (ls = L ∨ c.line_end = some L) := by
  induction comments using List.reverseRecOn with
  | nil => simp [buildCommentMap, lineEntry, alookup]
  | append_singleton l c ih =>
      rw [buildCommentMap_append_one, isSome_lineEntry_addComment, ih,
        exists_mem_append_one]

/-- The inner-map invariant: every line's list is duplicate-free and draws
only from the processed comments `P`. -/
def InvF (fm : FileCommentMap) (P : List Comment) : Prop :=
  ∀ L lst, alookup L fm = some lst → lst.Nodup ∧ ∀ x ∈ lst, x ∈ P

/-- The index invariant: every file's inner map satisfies `InvF`. -/
def InvM (map : CommentMap) (P : List Comment) : Prop :=
  ∀ f fm, alookup f map = some fm → InvF fm P

theorem InvF_nil (P : List Comment) : InvF ([] : FileCommentMap) P := by
  intro L lst h
  simp [alookup] at h

theorem InvF_mono {fm : FileCommentMap} {P P' : List Comment}
    (h : InvF fm P) (hsub : ∀ x ∈ P, x ∈ P') : InvF fm P' := by
  intro L lst hL
  rcases h L lst hL with ⟨h1, h2⟩
  exact ⟨h1, fun x hx => hsub x (h2 x hx)⟩

theorem InvF_getD {map : CommentMap} {P : List Comment} (h : InvM map P) (f : String) :
    InvF ((alookup f map).getD ([] : FileCommentMap)) P := by
  cases hb : alookup f map with
  | none => exact InvF_nil P
  | some fm =>
      rw [Option.getD_some]
      exact h f fm hb

theorem InvF_base {fm : FileCommentMap} {P : List Comment} (h : InvF fm P) (L : Nat) :
    ((alookup L fm).getD []).Nodup ∧ ∀ x ∈ (alookup L fm).getD [], x ∈ P := by
  cases hb : alookup L fm with
  | none => simp
  | some lst =>
      rw [Option.getD_some]
      exact h L lst hb

theorem InvF_addAtLineStart {fm : FileCommentMap} {P : List Comment} (c : Comment)
    (lk : Nat) (h : InvF fm P) (hc : c ∉ P) :
    InvF (addAtLineStart c lk fm) (P ++ [c]) := by
  intro L lst hL
  rw [alookup_addAtLineStart] at hL
  by_cases heq : lk = L
  · rw [if_pos heq] at hL
    have hlst := (Option.some.inj hL).symm
    subst hlst
    rcases InvF_base h L with ⟨hbn, hbp⟩
    constructor
    · rw [List.nodup_append]
      refine ⟨hbn, List.nodup_singleton c, ?_⟩
      intro x hx hxc
      have hxe := List.mem_singleton.mp hxc
      subst hxe
      exact hc (hbp x hx)
    · intro x hx
      rcases List.mem_append.mp hx with h1 | h1
      · exact List.mem_append_left _ (hbp x h1)
      · exact List.mem_append_right _ h1
  · rw [if_neg heq] at hL
    rcases h L lst hL with ⟨h1, h2⟩
    exact ⟨h1, fun x hx => List.mem_append_left _ (h2 x hx)⟩

theorem InvF_addAtLineEnd {fm : FileCommentMap} {Q : List Comment} (c : Comment)
    (le : Nat) (h : InvF fm Q) (hcQ : c ∈ Q) :
    InvF (addAtLineEnd c le fm) Q := by
  intro L lst hL
  rw [alookup_addAtLineEnd] at hL
  by_cases heq : le = L
  · rw [if_pos heq] at hL
    have hlst := (Option.some.inj hL).symm
    subst hlst
    rcases InvF_base h L with ⟨hbn, hbp⟩
    by_cases hmem : c ∈ (alookup L fm).getD []
    · rw [if_pos hmem]
      exact ⟨hbn, hbp⟩
    · rw [if_neg hmem]
      constructor
      · rw [List.nodup_append]
        refine ⟨hbn, List.nodup_singleton c, ?_⟩
        intro x hx hxc
        have hxe := List.mem_singleton.mp hxc
        subst hxe
        exact hmem hx
      · intro x hx
        rcases List.mem_append.mp hx with h1 | h1
        · exact hbp x h1
        · have hxe := List.mem_singleton.mp h1
          subst hxe
          exact hcQ
  · rw [if_neg heq] at hL
    exact h L lst hL

theorem InvF_transform {fm : FileCommentMap} {P : List Comment} (c : Comment)
    (h : InvF fm P) (hc : c ∉ P) :
    InvF (commentFileTransform c fm) (P ++ [c]) := by
  rw [commentFileTransform]
  cases hls : c.line_start with
  | none =>
      exact InvF_mono h (fun x hx => List.mem_append_left _ hx)
  | some lk =>
      dsimp only
      cases hle : c.line_end with
      | none => exact InvF_addAtLineStart c lk h hc
      | some le =>
          dsimp only
          by_cases heq : le = lk
          · rw [if_pos heq]
            exact InvF_addAtLineStart c lk h hc
          · rw [if_neg heq]
            exact InvF_addAtLineEnd c le (InvF_addAtLineStart c lk h hc)
              (List.mem_append_right _ (List.mem_singleton.mpr rfl))

theorem InvM_addComment {map : CommentMap} {P : List Comment} (c : Comment)
    (h : InvM map P) (hc : c ∉ P) :
    InvM (addComment map c) (P ++ [c]) := by
  intro f fm hf
  by_cases hfp : c.file_path = f
  · subst hfp
    rw [alookup_addComment_self] at hf
    have hfm := (Option.some.inj hf).symm
    subst hfm
    exact InvF_transform c (InvF_getD h c.file_path) hc
  · rw [alookup_addComment_other map c f hfp] at hf
    exact InvF_mono (h f fm hf) (fun x hx => List.mem_append_left _ hx)

theorem buildCommentMap_inv (comments : List Comment) (hnd : comments.Nodup) :
    InvM (buildCommentMap comments) comments := by
  induction comments using List.reverseRecOn with
  | nil =>
      intro f fm hf
      simp [buildCommentMap, alookup] at hf
  | append_singleton l c ih =>
      rcases List.nodup_append.mp hnd with ⟨hnl, _, hdisj⟩
      have hcl : c ∉ l := by
        intro hmem
        exact hdisj hmem (List.mem_singleton.mpr rfl)
      rw [buildCommentMap_append_one]
      exact InvM_addComment c (ih hnl) hcl

/-- A concrete line comment at line 3 of file `f`, with no end line. -/
def cDup : Comment :=
  { id := "c1", file_path := "f", line_start := some 3, line_end := none
    side := .new, content := "needs work", status := .queued, sent_at := none }

/-- A concrete range comment on lines 5–9 of file `f`. -/
def cRange : Comment :=
  { id := "c2", file_path := "f", line_start := some 5, line_end := some 9
    side := .new, content := "check this", status := .queued, sent_at := none }

/-- C1 counterexample: for the comment list `[cDup, cDup]` (no comment has
a null `line_start`), the built index nonetheless contains the bucket for
file `f` — so the bucket does not appear iff some comment has a null
`line_start` — and the entry at line 3 holds the same comment twice,
because the source guards against duplicates only at the end line, not at
the start line. -/
theorem buildCommentMap_claim_counterexample :
    buildCommentMap [cDup, cDup] = [("f", [(3, [cDup, cDup])])] ∧
      ∀ c ∈ [cDup, cDup], c.line_start ≠ none := by
  constructor
  · decide
  · decide

/-- C1 amended: for every list of pairwise-distinct comments, the index
contains a bucket for file `f` iff at least one comment (of any kind, a
null-range comment included) has that file path; the bucket has an entry
at line `L` iff some comment for that file has a non-null `line_start`
equal to `L` or a `line_end` equal to `L` (null-range comments are stored
nowhere); and no line's list contains the same comment twice. -/
theorem buildCommentMap_characterization (comments : List Comment)
    (hnd : comments.Nodup) :
    (∀ f, (alookup f (buildCommentMap comments)).isSome ↔
        ∃ c ∈ comments, c.file_path = f) ∧
    (∀ f L, (lineEntry (buildCommentMap comments) f L).isSome ↔
        ∃ c ∈ comments, c.file_path = f ∧ ∃ ls, c.line_start = some ls ∧
          (ls = L ∨ c.line_end = some L)) ∧
    (∀ f fm L lst, alookup f (buildCommentMap comments) = some fm →
        alookup L fm = some lst → lst.Nodup) := by
  refine ⟨buildCommentMap_hasFile comments, buildCommentMap_lineEntry comments, ?_⟩
  intro f fm L lst hf hL
  exact ((buildCommentMap_inv comments hnd) f fm hf L lst hL).1

/-- C1 witness: the amended characterization applied to the concrete list
`[cDup, cRange]` — the range comment indexes at its end line 9. -/
theorem buildCommentMap_characterization_witness :
    (lineEntry (buildCommentMap [cDup, cRange]) "f" 9).isSome :=
  ((buildCommentMap_characterization [cDup, cRange] (by decide)).2.1 "f" 9).mpr
    ⟨cRange, by decide, rfl, 5, rfl, Or.inr rfl⟩

/-! Indicator suppression while an authoring target is active
(`indicatorAnnotations` in the render loop of `DiffViewerClient`). -/

/-- Embeds `commentForm?.filePath === filePath`. -/
def isCommentingOnThisFile (commentForm : Option CommentFormData) (filePath : String) : Bool :=
  match commentForm with
  | some cf => decide (cf.filePath = filePath)
  | none => false

/-- Embeds the skip condition of the indicator loop:
`isCommentingOnThisFile && commentForm.lineStart === lineNum` (only the
target's start line is compared). -/
def suppressIndicator (commentForm : Option CommentFormData) (filePath : String)
    (lineNum : Nat) : Bool :=
  isCommentingOnThisFile commentForm filePath &&
    (match commentForm with
     | some cf => decide (cf.lineStart = some lineNum)
     | none => false)

/-- Embeds the `indicatorAnnotations` construction: iterate the file's
inner comment map in insertion order, dropping an entry exactly when the
skip condition holds; every kept entry becomes one comment-indicator
annotation at its line (always on the additions side). -/
def indicatorAnnotations (commentMap : CommentMap) (commentForm : Option CommentFormData)
    (filePath : String) : List (Nat × List Comment) :=
  match alookup filePath commentMap with
  | none => []
  | some fileCommentsMap =>
      fileCommentsMap.filter fun e => ! suppressIndicator commentForm filePath e.1

/-- A comment indicated at line 10 of file `f`. -/
def cL10 : Comment :=
  { id := "a1", file_path := "f", line_start := some 10, line_end := none
    side := .new, content := "ten", status := .queued, sent_at := none }

/-- A comment indicated at line 14 of file `f`. -/
def cL14 : Comment :=
  { id := "a2", file_path := "f", line_start := some 14, line_end := none
    side := .new, content := "fourteen", status := .queued, sent_at := none }

/-- A range authoring target covering lines 10–14 of file `f`. -/
def rangeTarget : CommentFormData :=
  { filePath := "f", lineStart := some 10, lineEnd := some 14
    side := .additions, isFileComment := false }

/-- C6 counterexample: while the range target 10–14 is active on file
`f`, the render list still contains the comment-indicator entry at line
14 — the target's end line — because the skip condition compares only
`lineStart`; so the claim that every line the target exactly covers is
suppressed is false on the code. -/
theorem indicator_suppression_counterexample :
    indicatorAnnotations (buildCommentMap [cL10, cL14]) (some rangeTarget) "f"
        = [(14, [cL14])] ∧
      rangeTarget.filePath = "f" ∧ rangeTarget.lineStart = some 10 ∧
      rangeTarget.lineEnd = some 14 := by
  refine ⟨by decide, rfl, rfl, rfl⟩

/-- C6 amended: while a target is active for a file, exactly the
indicator entries at the target's start line are suppressed from that
file's render list; entries at every other line — the end line of a range
target included — survive unchanged, and files other than the target's
(or any file when no target is active) keep their full entry list. -/
theorem indicator_suppression_amended (commentMap : CommentMap) (cf : CommentFormData)
    (filePath : String) (fm : FileCommentMap)
    (hf : alookup filePath commentMap = some fm) :
    (∀ L lst, (L, lst) ∈ indicatorAnnotations commentMap (some cf) filePath ↔
        ((L, lst) ∈ fm ∧ ¬ (cf.filePath = filePath ∧ cf.lineStart = some L))) ∧
    (cf.filePath ≠ filePath → indicatorAnnotations commentMap (some cf) filePath = fm) ∧
    indicatorAnnotations commentMap none filePath = fm := by
  refine ⟨?_, ?_, ?_⟩
  · intro L lst
    rw [indicatorAnnotations, hf]
    rw [List.mem_filter]
    simp only [suppressIndicator, isCommentingOnThisFile, Bool.not_eq_true',
      Bool.and_eq_false_iff, decide_eq_false_iff_not, not_and]
    constructor
    · rintro ⟨hmem, hsup⟩
      refine ⟨hmem, ?_⟩
      intro hfp hls
      rcases hsup with h | h
      · exact h hfp
      · exact h hls
    · rintro ⟨hmem, hsup⟩
      refine ⟨hmem, ?_⟩
      by_cases hfp : cf.filePath = filePath
      · exact Or.inr (hsup hfp)
      · exact Or.inl hfp
  · intro hne
    rw [indicatorAnnotations, hf]
    apply List.filter_eq_self.mpr
    intro e _
    simp [suppressIndicator, isCommentingOnThisFile, hne]
  · rw [indicatorAnnotations, hf]
    apply List.filter_eq_self.mpr
    intro e _
    simp [suppressIndicator, isCommentingOnThisFile]

/-- C6 witness: the amended statement applied to the concrete index of
`[cL10, cL14]` with no active target — both indicator entries survive. -/
theorem indicator_suppression_amended_witness :
    indicatorAnnotations (buildCommentMap [cL10, cL14]) none "f"
      = [(10, [cL10]), (14, [cL14])] :=
  (indicator_suppression_amended (buildCommentMap [cL10, cL14]) rangeTarget "f"
    [(10, [cL10]), (14, [cL14])] (by decide)).2.2

end LocalPRReviewer
